import Mathlib

/-!
Verification of the directory-scanning and filtering logic of
`dir_to_clipboard` (`src/main.rs`), together with a shallow embedding of
the `glob` crate's `Pattern` type that the program uses for its `--filter`
option.  Paths are modelled as lists of components relative to the scanned
root (`[]` is the root `.`), directory trees as an inductive type, and the
`walkdir` traversal as a depth-first enumeration of that tree.
-/

/-- Match options of the glob crate (`MatchOptions`).  `Pattern::matches`
uses the default: case sensitive, no literal-separator or leading-dot
requirement. -/
structure MatchOptions where
  caseSensitive : Bool
  requireLiteralSeparator : Bool
  requireLiteralLeadingDot : Bool
deriving DecidableEq

/-- Default `MatchOptions::new()` used by `Pattern::matches`. -/
def MatchOptions.default : MatchOptions := ⟨true, false, false⟩

/-- Character specifiers inside a glob character class (`CharSpecifier`). -/
inductive CharSpecifier where
  | singleChar (c : Char)
  | charRange (lo hi : Char)
deriving DecidableEq

/-- Tokens of a compiled glob pattern (`PatternToken`). -/
inductive Token where
  | char (c : Char)
  | anyChar
  | anySequence
  | anyRecursiveSequence
  | anyWithin (specs : List CharSpecifier)
  | anyExcept (specs : List CharSpecifier)
deriving DecidableEq

/-- Tri-state result of `matches_from` in the glob crate. -/
inductive MatchResult where
  | fullMatch
  | subPatternDoesntMatch
  | entirePatternDoesntMatch
deriving DecidableEq

/-- Path separator test; on the target platform only `/` separates. -/
def isSeparator (c : Char) : Bool := c == '/'

/-- ASCII lowercase conversion (`char::to_ascii_lowercase`). -/
def asciiLower (c : Char) : Char :=
  if 'A' ≤ c ∧ c ≤ 'Z' then Char.ofNat (c.toNat + 32) else c

/-- ASCII uppercase conversion (`char::to_ascii_uppercase`). -/
def asciiUpper (c : Char) : Char :=
  if 'a' ≤ c ∧ c ≤ 'z' then Char.ofNat (c.toNat - 32) else c

/-- ASCII test (`char::is_ascii`). -/
def isAsciiChar (c : Char) : Bool := c.toNat ≤ 127

/-- `chars_eq` from the glob crate (non-Windows build). -/
def charsEq (a b : Char) (caseSensitive : Bool) : Bool :=
  if !caseSensitive && isAsciiChar a && isAsciiChar b then
    asciiLower a == asciiLower b
  else
    a == b

/-- `in_char_specifiers` from the glob crate. -/
def inCharSpecifiers (specs : List CharSpecifier) (c : Char) (opts : MatchOptions) : Bool :=
  match specs with
  | [] => false
  | CharSpecifier.singleChar sc :: rest =>
      if charsEq c sc opts.caseSensitive then true
      else inCharSpecifiers rest c opts
  | CharSpecifier.charRange lo hi :: rest =>
      let ciHit :=
        if !opts.caseSensitive && isAsciiChar c && isAsciiChar lo && isAsciiChar hi then
          let lo' := asciiLower lo
          let hi' := asciiLower hi
          if lo' ≠ asciiUpper lo' ∧ hi' ≠ asciiUpper hi' then
            decide (lo' ≤ asciiLower c ∧ asciiLower c ≤ hi')
          else false
        else false
      if ciHit then true
      else if lo ≤ c ∧ c ≤ hi then true
      else inCharSpecifiers rest c opts

mutual

/-- `Pattern::matches_from`: match the remaining tokens against the
remaining characters of the file name.  `fs` is `follows_separator`. -/
def matchesFrom (opts : MatchOptions) (fs : Bool) : List Token → List Char → MatchResult
  | [], file => if file.isEmpty then .fullMatch else .subPatternDoesntMatch
  | Token.anySequence :: rest, file =>
      match matchesFrom opts fs rest file with
      | .subPatternDoesntMatch => starLoop opts fs rest file
      | m => m
  | Token.anyRecursiveSequence :: rest, file =>
      match matchesFrom opts fs rest file with
      | .subPatternDoesntMatch => starRecLoop opts fs rest file
      | m => m
  | tok :: rest, file =>
      match file with
      | [] => .entirePatternDoesntMatch
      | c :: file' =>
          let isSep := isSeparator c
          let special :=
            (opts.requireLiteralSeparator && isSep) ||
              (fs && opts.requireLiteralLeadingDot && c == '.')
          let ok :=
            match tok with
            | Token.anyChar => !special
            | Token.anyWithin specs =>
                if special then false else inCharSpecifiers specs c opts
            | Token.anyExcept specs =>
                if special then false else !(inCharSpecifiers specs c opts)
            | Token.char c2 => charsEq c c2 opts.caseSensitive
            | _ => false
          if ok then matchesFrom opts isSep rest file'
          else .subPatternDoesntMatch
termination_by toks file => (toks.length, file.length, 1)

/-- The `while let Some(c) = file.next()` loop of the `AnySequence` arm of
`matches_from`, including the fall-through to the remaining tokens once the
file is exhausted. -/
def starLoop (opts : MatchOptions) (fs : Bool) (rest : List Token) : List Char → MatchResult
  | [] => matchesFrom opts fs rest []
  | c :: file' =>
      if fs && opts.requireLiteralLeadingDot && c == '.' then .subPatternDoesntMatch
      else
        let fs' := isSeparator c
        if opts.requireLiteralSeparator && fs' then .subPatternDoesntMatch
        else
          match matchesFrom opts fs' rest file' with
          | .subPatternDoesntMatch => starLoop opts fs' rest file'
          | m => m
termination_by file => (rest.length + 1, file.length, 0)

/-- The corresponding loop for `AnyRecursiveSequence`, which only tries the
remaining tokens at path-separator boundaries. -/
def starRecLoop (opts : MatchOptions) (fs : Bool) (rest : List Token) : List Char → MatchResult
  | [] => matchesFrom opts fs rest []
  | c :: file' =>
      if fs && opts.requireLiteralLeadingDot && c == '.' then .subPatternDoesntMatch
      else
        let fs' := isSeparator c
        if !fs' then starRecLoop opts fs' rest file'
        else
          match matchesFrom opts fs' rest file' with
          | .subPatternDoesntMatch => starRecLoop opts fs' rest file'
          | m => m
termination_by file => (rest.length + 1, file.length, 0)

end

/-- A compiled glob pattern (`glob::Pattern`); only the token list matters
for matching. -/
structure Pattern where
  tokens : List Token
deriving DecidableEq

/-- Error produced by `Pattern::new` on a malformed pattern. -/
structure PatternError where
  pos : Nat
  msg : String
deriving DecidableEq

def errorWildcards : String := "wildcards are either regular `*` or recursive `**`"

def errorRecursiveWildcards : String := "recursive wildcards must form a single path component"

def errorInvalidRange : String := "invalid range pattern"

/-- `parse_char_specifiers` from the glob crate. -/
def parseCharSpecifiers : List Char → List CharSpecifier
  | a :: '-' :: b :: rest => CharSpecifier.charRange a b :: parseCharSpecifiers rest
  | a :: rest => CharSpecifier.singleChar a :: parseCharSpecifiers rest
  | [] => []

/-- Collapse consecutive `AnyRecursiveSequence` tokens as `Pattern::new`
does (only when the list has more than one token). -/
def pushRecursive (tokens : List Token) : List Token :=
  if tokens.length > 1 ∧ tokens.getLast? = some Token.anyRecursiveSequence then tokens
  else tokens ++ [Token.anyRecursiveSequence]

/-- The token-building loop of `Pattern::new`, indexed by the current
position `i` in the pattern's character list. -/
def patNewLoop (chars : List Char) (i : Nat) (tokens : List Token) (isRec : Bool) :
    Except PatternError (List Token × Bool) :=
  if h : i < chars.length then
    match chars.get ⟨i, h⟩ with
    | '?' => patNewLoop chars (i + 1) (tokens ++ [Token.anyChar]) isRec
    | '*' =>
        let extra := ((chars.drop (i + 1)).takeWhile (fun c => c == '*')).length
        let count := extra + 1
        if count > 2 then
          Except.error ⟨i + 2, errorWildcards⟩
        else if count = 2 then
          if i + count = 2 ∨ isSeparator (chars.getD (i - 1) ' ') then
            if i + count < chars.length ∧ isSeparator (chars.getD (i + count) ' ') then
              patNewLoop chars (i + count + 1) (pushRecursive tokens) true
            else if i + count = chars.length then
              patNewLoop chars (i + count) (pushRecursive tokens) true
            else
              Except.error ⟨i + count, errorRecursiveWildcards⟩
          else
            Except.error ⟨i - 1, errorRecursiveWildcards⟩
        else
          patNewLoop chars (i + count) (tokens ++ [Token.anySequence]) isRec
    | '[' =>
        if i + 4 ≤ chars.length ∧ chars.getD (i + 1) ' ' = '!' then
          match (chars.drop (i + 3)).findIdx? (fun c => c == ']') with
          | some j =>
              let specs := parseCharSpecifiers ((chars.drop (i + 2)).take (j + 1))
              patNewLoop chars (i + j + 4) (tokens ++ [Token.anyExcept specs]) isRec
          | none => Except.error ⟨i, errorInvalidRange⟩
        else if i + 3 ≤ chars.length ∧ chars.getD (i + 1) ' ' ≠ '!' then
          match (chars.drop (i + 2)).findIdx? (fun c => c == ']') with
          | some j =>
              let specs := parseCharSpecifiers ((chars.drop (i + 1)).take (j + 1))
              patNewLoop chars (i + j + 3) (tokens ++ [Token.anyWithin specs]) isRec
          | none => Except.error ⟨i, errorInvalidRange⟩
        else
          Except.error ⟨i, errorInvalidRange⟩
    | _ => patNewLoop chars (i + 1) (tokens ++ [Token.char (chars.get ⟨i, h⟩)]) isRec
  else
    Except.ok (tokens, isRec)
termination_by chars.length - i

/-- `Pattern::new`: compile a pattern string or report a `PatternError`. -/
def Pattern.new (s : String) : Except PatternError Pattern :=
  match patNewLoop s.toList 0 [] false with
  | Except.ok (toks, _) => Except.ok ⟨toks⟩
  | Except.error e => Except.error e

/-- `Pattern::matches_with`. -/
def Pattern.matchesWith (p : Pattern) (s : String) (opts : MatchOptions) : Bool :=
  matchesFrom opts true p.tokens s.toList == MatchResult.fullMatch

/-- `Pattern::matches`: match with the default options (case sensitive). -/
def Pattern.matches (p : Pattern) (s : String) : Bool :=
  p.matchesWith s MatchOptions.default

/-- Base file name of a path given as a component list; `none` for the
root, mirroring `Path::file_name`. -/
def fileNameOf (p : List String) : Option String := p.getLast?

/-- `should_process_file` from `src/main.rs` (lines 38-48): with a filter
pattern, match it against the base file name (reject when there is none);
without a filter, accept. -/
def should_process_file (p : List String) (filterPattern : Option Pattern) : Bool :=
  match filterPattern with
  | some pattern =>
      match fileNameOf p with
      | some fileName => pattern.matches fileName
      | none => false
  | none => true

/-- A filesystem node: a file with its readable content (`none` when
reading the file fails) or a directory with its children. -/
inductive FSTree where
  | file (name : String) (content : Option String)
  | dir (name : String) (children : List FSTree)

/-- Name of a filesystem node. -/
def FSTree.name : FSTree → String
  | .file n _ => n
  | .dir n _ => n

/-- Kind of a traversal entry: a file (with content, `none` if unreadable)
or a directory. -/
inductive EntryKind where
  | file (content : Option String)
  | dir
deriving DecidableEq

/-- Whether an entry is a file (`DirEntry::file_type().is_file()`). -/
def EntryKind.isFile : EntryKind → Bool
  | .file _ => true
  | .dir => false

/-- Whether traversal may descend to depth `d` under an optional
`max_depth` bound. -/
def descendOK : Option Nat → Nat → Bool
  | none, _ => true
  | some m, d => d ≤ m

mutual

/-- Depth-first enumeration of one node, as `walkdir` yields it: the node
itself, then (for a directory, when within the depth bound) its contents.
`d` is the depth of the node, `pre` the path of its parent. -/
def walkNode (maxD : Option Nat) (d : Nat) (pre : List String) : FSTree → List (List String × EntryKind)
  | .file n c => [(pre ++ [n], EntryKind.file c)]
  | .dir n cs =>
      (pre ++ [n], EntryKind.dir) ::
        (if descendOK maxD (d + 1) then walkForest maxD (d + 1) (pre ++ [n]) cs else [])

/-- Depth-first enumeration of a list of sibling nodes, in list order. -/
def walkForest (maxD : Option Nat) (d : Nat) (pre : List String) : List FSTree → List (List String × EntryKind)
  | [] => []
  | t :: ts => walkNode maxD d pre t ++ walkForest maxD d pre ts

end

/-- `directory_has_matching_files` from `src/main.rs` (lines 50-58): walk
the directory's subtree at `min_depth(1)` and test whether any entry is a
file passing `should_process_file`.  The argument is the directory's list
of children. -/
def directory_has_matching_files (cs : List FSTree) (pat : Option Pattern) : Bool :=
  (walkForest none 1 [] cs).any (fun e => e.2.isFile && should_process_file e.1 pat)

/-- Resolve a component path to the children of the directory it names
(`some cs` for the empty path); `none` when a component is missing or is a
file. -/
def forestAt : List FSTree → List String → Option (List FSTree)
  | cs, [] => some cs
  | cs, n :: rest =>
      match cs.find? (fun t => t.name == n) with
      | some (FSTree.dir _ ds) => forestAt ds rest
      | _ => none

/-- The recursive-mode guard of `main` (line 97): re-walk the directory at
`dir_path` and test for a matching file; a path that does not resolve to a
directory yields no entries at depth one and hence `false`. -/
def dirHasMatchAt (root : List FSTree) (p : List String) (pat : Option Pattern) : Bool :=
  match forestAt root p with
  | some f => directory_has_matching_files f pat
  | none => false

/-- A scan event: a directory announcement carrying the result of the
directory lister (`none` when `ls` fails, in which case the listing body is
omitted), or a file visit carrying the file contents. -/
inductive ScanEvent where
  | dirEvent (path : List String) (listing : Option String)
  | fileEvent (path : List String) (content : String)
deriving DecidableEq

/-- File events contributed by one entry: the file's contents when they
can be read, nothing otherwise (a failing `read_file_contents` is simply
skipped, lines 107-111). -/
def fileEventsOf (p : List String) : EntryKind → List ScanEvent
  | EntryKind.file (some s) => [ScanEvent.fileEvent p s]
  | _ => []

/-- The entry-processing loop of `main` (lines 89-113) over an explicit
entry list, carrying `current_dir`: for each file entry passing the filter,
announce its parent directory when it differs from the last announced one
(in recursive mode only when `directory_has_matching_files` holds for it),
then emit the file's contents when they can be read. -/
def scanLoop (recursive : Bool) (root : List FSTree) (pat : Option Pattern)
    (lister : List String → Option String) :
    List (List String × EntryKind) → Option (List String) → List ScanEvent
  | [], _ => []
  | (p, k) :: rest, current =>
      if k.isFile && should_process_file p pat then
        let dirPath := p.dropLast
        let ann :=
          if current ≠ some dirPath then
            if !recursive || dirHasMatchAt root dirPath pat then
              some (ScanEvent.dirEvent dirPath (lister dirPath))
            else none
          else none
        let current' := if ann.isSome then some dirPath else current
        ann.toList ++ fileEventsOf p k ++ scanLoop recursive root pat lister rest current'
      else
        scanLoop recursive root pat lister rest current

theorem scanLoop_cons_skip {p : List String} {k : EntryKind} {pat : Option Pattern}
    (r : Bool) (root : List FSTree) (lister : List String → Option String)
    (rest : List (List String × EntryKind)) (current : Option (List String))
    (hp : (k.isFile && should_process_file p pat) = false) :
    scanLoop r root pat lister ((p, k) :: rest) current =
      scanLoop r root pat lister rest current := by
  simp [scanLoop, hp]

theorem scanLoop_cons_stay {p : List String} {k : EntryKind} {pat : Option Pattern}
    {current : Option (List String)} (r : Bool) (root : List FSTree)
    (lister : List String → Option String) (rest : List (List String × EntryKind))
    (hp : (k.isFile && should_process_file p pat) = true)
    (hc : current = some p.dropLast) :
    scanLoop r root pat lister ((p, k) :: rest) current =
      fileEventsOf p k ++ scanLoop r root pat lister rest current := by
  subst hc
  simp [scanLoop, hp]

theorem scanLoop_cons_announce {p : List String} {k : EntryKind} {pat : Option Pattern}
    {current : Option (List String)} {r : Bool} {root : List FSTree}
    (lister : List String → Option String) (rest : List (List String × EntryKind))
    (hp : (k.isFile && should_process_file p pat) = true)
    (hc : ¬(current = some p.dropLast))
    (hg : (!r || dirHasMatchAt root p.dropLast pat) = true) :
    scanLoop r root pat lister ((p, k) :: rest) current =
      ScanEvent.dirEvent p.dropLast (lister p.dropLast) ::
        (fileEventsOf p k ++ scanLoop r root pat lister rest (some p.dropLast)) := by
  simp [scanLoop, hp, hc, hg]

theorem scanLoop_cons_blocked {p : List String} {k : EntryKind} {pat : Option Pattern}
    {current : Option (List String)} {r : Bool} {root : List FSTree}
    (lister : List String → Option String) (rest : List (List String × EntryKind))
    (hp : (k.isFile && should_process_file p pat) = true)
    (hc : ¬(current = some p.dropLast))
    (hg : (!r || dirHasMatchAt root p.dropLast pat) = false) :
    scanLoop r root pat lister ((p, k) :: rest) current =
      fileEventsOf p k ++ scanLoop r root pat lister rest current := by
  simp [scanLoop, hp, hc, hg]

/-- One whole scan of `main`: walk the root's children (`min_depth(1)`,
`max_depth(1)` unless recursive) and process every entry. -/
def scan (recursive : Bool) (cs : List FSTree) (pat : Option Pattern)
    (lister : List String → Option String) : List ScanEvent :=
  scanLoop recursive cs pat lister
    (walkForest (if recursive then none else some 1) 1 [] cs) none

/-- Command-line arguments of the program (`Args` in `src/main.rs`): only a
recursive flag and an optional filter pattern. -/
structure Args where
  recursive : Bool
  filter : Option String

/-- Root path handed to `WalkDir::new` by `main` (line 78): the literal
current directory, independent of the arguments. -/
def scanRoot (_args : Args) : String := "."

/-- Textual form of a component path, as the program displays paths under
`WalkDir::new(".")`. -/
def pathStr (p : List String) : String :=
  p.foldl (fun acc n => acc ++ "/" ++ n) "."

/-- Render one event exactly as `main` appends it to `output` (lines
98-101 and 107-111): directory header plus listing body when available;
file header plus contents. -/
def renderEvent : ScanEvent → String
  | .dirEvent p l =>
      "\n=== Directory: " ++ pathStr p ++ " ===\n" ++
        (match l with | some s => s | none => "")
  | .fileEvent p c => "\n=== File: " ++ pathStr p ++ " ===\n" ++ c ++ "\n"

/-- The assembled output document. -/
def renderOutput (evs : List ScanEvent) : String :=
  evs.foldl (fun acc e => acc ++ renderEvent e) ""

/-- The configuration-and-scan pipeline of `main` (lines 60-113): compile
the filter pattern (a malformed pattern aborts with `Invalid filter
pattern`), initialize the clipboard, then walk and produce the events. -/
def mainRun (args : Args) (clipInit : Except String Unit) (cs : List FSTree)
    (lister : List String → Option String) : Except String (List ScanEvent) :=
  match (match args.filter with
         | none => Except.ok none
         | some f =>
             match Pattern.new f with
             | Except.ok p => Except.ok (some p)
             | Except.error _ => Except.error "Invalid filter pattern") with
  | Except.error e => Except.error e
  | Except.ok pat =>
      match clipInit with
      | Except.error e => Except.error e
      | Except.ok _ => Except.ok (scan args.recursive cs pat lister)

mutual

/-- Well-formedness of a node as a real filesystem provides it: sibling
names are distinct throughout. -/
def wfNode : FSTree → Bool
  | .file _ _ => true
  | .dir _ cs => wfForest cs

/-- Well-formedness of a sibling list: the head's name is fresh among the
rest and every node is well-formed. -/
def wfForest : List FSTree → Bool
  | [] => true
  | t :: ts => wfNode t && namesFresh t.name ts && wfForest ts

/-- No node in the list bears the given name. -/
def namesFresh (n : String) : List FSTree → Bool
  | [] => true
  | t :: ts => (t.name != n) && namesFresh n ts

end

mutual

theorem walkNode_shift (maxD : Option Nat) (d : Nat) (pre : List String) (t : FSTree) :
    walkNode maxD d pre t = (walkNode maxD d [] t).map (fun e => (pre ++ e.1, e.2)) := by
  cases t with
  | file n c => simp [walkNode]
  | dir n cs =>
      cases hD : descendOK maxD (d + 1) with
      | false => simp [walkNode, hD]
      | true =>
          simp only [walkNode, hD, if_pos, List.map_cons, List.map_append, List.nil_append]
          rw [walkForest_shift maxD (d + 1) (pre ++ [n]) cs,
            walkForest_shift maxD (d + 1) [n] cs]
          simp [List.map_map, Function.comp_def]

theorem walkForest_shift (maxD : Option Nat) (d : Nat) (pre : List String) (ts : List FSTree) :
    walkForest maxD d pre ts = (walkForest maxD d [] ts).map (fun e => (pre ++ e.1, e.2)) := by
  cases ts with
  | nil => simp [walkForest]
  | cons t ts =>
      simp only [walkForest, List.map_append]
      rw [walkNode_shift maxD d pre t, walkForest_shift maxD d pre ts]

end

mutual

theorem walkNode_depth (d d' : Nat) (pre : List String) (t : FSTree) :
    walkNode none d pre t = walkNode none d' pre t := by
  cases t with
  | file n c => rfl
  | dir n cs =>
      simp only [walkNode, descendOK]
      rw [walkForest_depth (d + 1) (d' + 1) (pre ++ [n]) cs]

theorem walkForest_depth (d d' : Nat) (pre : List String) (ts : List FSTree) :
    walkForest none d pre ts = walkForest none d' pre ts := by
  cases ts with
  | nil => rfl
  | cons t ts =>
      simp only [walkForest]
      rw [walkNode_depth d d' pre t, walkForest_depth d d' pre ts]

end

theorem walkForest_path_ne_nil (maxD : Option Nat) (d : Nat) (ts : List FSTree)
    (e : List String × EntryKind) (he : e ∈ walkForest maxD d [] ts) : e.1 ≠ [] := by
  induction ts with
  | nil => simp [walkForest] at he
  | cons t ts ih =>
      simp only [walkForest, List.mem_append] at he
      rcases he with he | he
      · cases t with
        | file n c =>
            simp only [walkNode, List.mem_singleton] at he
            subst he; simp
        | dir n cs =>
            simp only [walkNode, List.nil_append, List.mem_cons] at he
            rcases he with he | he
            · subst he; simp
            · cases hD : descendOK maxD (d + 1) with
              | false => simp [hD] at he
              | true =>
                  simp only [hD, if_true] at he
                  rw [walkForest_shift maxD (d + 1) [n] cs] at he
                  rcases List.mem_map.mp he with ⟨e', _, rfl⟩
                  simp
      · exact ih he

theorem should_process_cons (m : String) (q : List String) (hq : q ≠ []) (pat : Option Pattern) :
    should_process_file (m :: q) pat = should_process_file q pat := by
  cases q with
  | nil => exact absurd rfl hq
  | cons b l => cases pat <;> simp [should_process_file, fileNameOf, List.getLast?_cons_cons]

theorem mem_walkForest_iff (d : Nat) (ts : List FSTree) (p : List String) (k : EntryKind) :
    (p, k) ∈ walkForest none d [] ts ↔
      ((∃ n c, p = [n] ∧ k = EntryKind.file c ∧ FSTree.file n c ∈ ts) ∨
       (∃ m ds, FSTree.dir m ds ∈ ts ∧
         ((p = [m] ∧ k = EntryKind.dir) ∨
          ∃ q, p = m :: q ∧ (q, k) ∈ walkForest none d [] ds))) := by
  induction ts with
  | nil => simp [walkForest]
  | cons t ts ih =>
      simp only [walkForest, List.mem_append]
      constructor
      · rintro (hn | hf)
        · cases t with
          | file n c =>
              simp only [walkNode, List.nil_append, List.mem_singleton, Prod.mk.injEq] at hn
              exact Or.inl ⟨n, c, hn.1, hn.2.symm ▸ rfl, List.mem_cons_self _ _⟩
          | dir m ds =>
              simp only [walkNode, List.nil_append, List.mem_cons, descendOK, if_true] at hn
              rcases hn with hn | hn
              · rcases Prod.mk.injEq .. ▸ hn with ⟨h1, h2⟩
                exact Or.inr ⟨m, ds, List.mem_cons_self _ _, Or.inl ⟨h1, h2⟩⟩
              · rw [walkForest_shift none (d + 1) [m] ds] at hn
                rcases List.mem_map.mp hn with ⟨⟨q, k'⟩, hq, he⟩
                simp only [Prod.mk.injEq] at he
                rw [he.2] at hq
                rw [walkForest_depth (d + 1) d [] ds] at hq
                exact Or.inr ⟨m, ds, List.mem_cons_self _ _, Or.inr ⟨q, he.1.symm, hq⟩⟩
        · rcases (ih).mp hf with h | ⟨m, ds, hmem, hrest⟩
          · rcases h with ⟨n, c, h1, h2, h3⟩
            exact Or.inl ⟨n, c, h1, h2, List.mem_cons_of_mem _ h3⟩
          · exact Or.inr ⟨m, ds, List.mem_cons_of_mem _ hmem, hrest⟩
      · rintro (⟨n, c, hp, hk, hmem⟩ | ⟨m, ds, hmem, hrest⟩)
        · subst hp; subst hk
          rcases List.mem_cons.mp hmem with rfl | hmem'
          · exact Or.inl (by simp [walkNode])
          · exact Or.inr (ih.mpr (Or.inl ⟨n, c, rfl, rfl, hmem'⟩))
        · rcases List.mem_cons.mp hmem with rfl | hmem'
          · refine Or.inl ?_
            rcases hrest with ⟨hp, hk⟩ | ⟨q, hp, hq⟩
            · subst hp; subst hk; simp [walkNode]
            · subst hp
              simp only [walkNode, List.nil_append, descendOK, if_true, List.mem_cons]
              refine Or.inr ?_
              rw [walkForest_shift none (d + 1) [m] ds]
              refine List.mem_map.mpr ⟨(q, k), ?_, rfl⟩
              rw [walkForest_depth (d + 1) d [] ds]
              exact hq
          · exact Or.inr (ih.mpr (Or.inr ⟨m, ds, hmem', hrest⟩))

theorem namesFresh_ne (n : String) (ts : List FSTree) (h : namesFresh n ts = true)
    (t : FSTree) (ht : t ∈ ts) : t.name ≠ n := by
  induction ts with
  | nil => simp at ht
  | cons u ts ih =>
      simp only [namesFresh, Bool.and_eq_true, bne_iff_ne] at h
      rcases List.mem_cons.mp ht with rfl | ht'
      · exact h.1
      · exact ih h.2 ht'

theorem wfForest_mem (ts : List FSTree) (hwf : wfForest ts = true)
    (t : FSTree) (ht : t ∈ ts) : wfNode t = true := by
  induction ts with
  | nil => simp at ht
  | cons u ts ih =>
      simp only [wfForest, Bool.and_eq_true] at hwf
      rcases List.mem_cons.mp ht with rfl | ht'
      · exact hwf.1.1
      · exact ih hwf.2 ht'

theorem wfForest_find (ts : List FSTree) (hwf : wfForest ts = true)
    (t : FSTree) (ht : t ∈ ts) : ts.find? (fun u => u.name == t.name) = some t := by
  induction ts with
  | nil => simp at ht
  | cons u ts ih =>
      simp only [wfForest, Bool.and_eq_true] at hwf
      rcases List.mem_cons.mp ht with rfl | ht'
      · simp [List.find?_cons]
      · have hne : t.name ≠ u.name := namesFresh_ne u.name ts hwf.1.2 t ht'
        rw [List.find?_cons_of_neg _ (by simpa using fun h => hne h.symm)]
        exact ih hwf.2 ht'

theorem walk_file_resolves (p : List String) : ∀ (ts : List FSTree) (n : String) (c : Option String),
    wfForest ts = true → (p ++ [n], EntryKind.file c) ∈ walkForest none 1 [] ts →
    ∃ f, forestAt ts p = some f ∧ FSTree.file n c ∈ f := by
  induction p with
  | nil =>
      intro ts n c hwf hmem
      rcases (mem_walkForest_iff 1 ts ([] ++ [n]) (EntryKind.file c)).mp hmem with
        ⟨n', c', hp, hk, hm⟩ | ⟨m, ds, _, hrest⟩
      · simp only [List.nil_append, List.cons.injEq, and_true] at hp
        rcases EntryKind.file.injEq .. ▸ hk with rfl
        subst hp
        exact ⟨ts, rfl, hm⟩
      · rcases hrest with ⟨_, hk⟩ | ⟨q, hp, hq⟩
        · simp at hk
        · simp only [List.nil_append, List.cons.injEq] at hp
          rcases hp with ⟨rfl, rfl⟩
          exact absurd rfl (walkForest_path_ne_nil none 1 ds ([], EntryKind.file c) hq)
  | cons m' p' ih =>
      intro ts n c hwf hmem
      rcases (mem_walkForest_iff 1 ts ((m' :: p') ++ [n]) (EntryKind.file c)).mp hmem with
        ⟨n', c', hp, _, _⟩ | ⟨m, ds, hm, hrest⟩
      · simp only [List.cons_append, List.cons.injEq] at hp
        exact absurd hp.2 (by simp)
      · rcases hrest with ⟨_, hk⟩ | ⟨q, hp, hq⟩
        · simp at hk
        · simp only [List.cons_append, List.cons.injEq] at hp
          rcases hp with ⟨rfl, rfl⟩
          have hwds : wfForest ds = true := by
            have h := wfForest_mem ts hwf (FSTree.dir m' ds) hm
            simpa [wfNode] using h
          obtain ⟨f, hf, hmemf⟩ := ih ds n c hwds hq
          refine ⟨f, ?_, hmemf⟩
          have hfind := wfForest_find ts hwf (FSTree.dir m' ds) hm
          simp only [forestAt, FSTree.name] at hfind ⊢
          rw [hfind]
          exact hf

theorem should_process_singleton_concat (q : List String) (n : String) (pat : Option Pattern) :
    should_process_file [n] pat = should_process_file (q ++ [n]) pat := by
  cases pat <;> simp [should_process_file, fileNameOf, List.getLast?_concat]

theorem guard_holds (cs : List FSTree) (pat : Option Pattern) (p : List String) (c : Option String)
    (hwf : wfForest cs = true) (hmem : (p, EntryKind.file c) ∈ walkForest none 1 [] cs)
    (hpass : should_process_file p pat = true) :
    dirHasMatchAt cs p.dropLast pat = true := by
  have hne : p ≠ [] := walkForest_path_ne_nil none 1 cs (p, EntryKind.file c) hmem
  obtain ⟨q, n, hp⟩ : ∃ q n, p = q ++ [n] :=
    ⟨p.dropLast, p.getLast hne, (List.dropLast_append_getLast hne).symm⟩
  subst hp
  obtain ⟨f, hf, hmemf⟩ := walk_file_resolves q cs n c hwf hmem
  rw [List.dropLast_concat]
  simp only [dirHasMatchAt, hf]
  refine List.any_eq_true.mpr ⟨([n], EntryKind.file c), ?_, ?_⟩
  · exact (mem_walkForest_iff 1 f [n] (EntryKind.file c)).mpr (Or.inl ⟨n, c, rfl, rfl, hmemf⟩)
  · have hsp : should_process_file [n] pat = true :=
      (should_process_singleton_concat q n pat).symm ▸ hpass
    simp [EntryKind.isFile, hsp]

/-- A file at depth at least one somewhere in the subtree spanned by the
given sibling list passes the filter: the spec-level reading of
`directoryHasMatch`. -/
inductive SubtreeHasPassingFile (pat : Option Pattern) : List FSTree → Prop where
  | here {n : String} {c : Option String} {ts : List FSTree} :
      FSTree.file n c ∈ ts → should_process_file [n] pat = true →
      SubtreeHasPassingFile pat ts
  | deeper {m : String} {ds ts : List FSTree} :
      FSTree.dir m ds ∈ ts → SubtreeHasPassingFile pat ds →
      SubtreeHasPassingFile pat ts

theorem walk_pass_to_subtree (pat : Option Pattern) (p : List String) :
    ∀ (ts : List FSTree) (c : Option String),
      (p, EntryKind.file c) ∈ walkForest none 1 [] ts →
      should_process_file p pat = true → SubtreeHasPassingFile pat ts := by
  induction p with
  | nil =>
      intro ts c hmem _
      exact absurd rfl (walkForest_path_ne_nil none 1 ts ([], EntryKind.file c) hmem)
  | cons m q ih =>
      intro ts c hmem hpass
      rcases (mem_walkForest_iff 1 ts (m :: q) (EntryKind.file c)).mp hmem with
        ⟨n', c', hp, hk, hm⟩ | ⟨m', ds, hm, hrest⟩
      · rcases List.cons.injEq .. ▸ hp with ⟨rfl, rfl⟩
        rcases EntryKind.file.injEq .. ▸ hk with rfl
        exact SubtreeHasPassingFile.here hm hpass
      · rcases hrest with ⟨_, hk⟩ | ⟨q', hp, hq⟩
        · simp at hk
        · rcases List.cons.injEq .. ▸ hp with ⟨rfl, rfl⟩
          have hq_ne : q ≠ [] :=
            walkForest_path_ne_nil none 1 ds (q, EntryKind.file c) hq
          refine SubtreeHasPassingFile.deeper hm (ih ds c hq ?_)
          rw [← should_process_cons m q hq_ne pat]
          exact hpass

theorem subtree_to_walk (pat : Option Pattern) (ts : List FSTree)
    (h : SubtreeHasPassingFile pat ts) :
    ∃ p c, (p, EntryKind.file c) ∈ walkForest none 1 [] ts ∧
      should_process_file p pat = true := by
  induction h with
  | @here n c ts hm hsp =>
      exact ⟨[n], c,
        (mem_walkForest_iff 1 ts [n] (EntryKind.file c)).mpr (Or.inl ⟨n, c, rfl, rfl, hm⟩), hsp⟩
  | @deeper m ds ts hm _ ih =>
      obtain ⟨p, c, hmem, hsp⟩ := ih
      have hp_ne : p ≠ [] := walkForest_path_ne_nil none 1 ds (p, EntryKind.file c) hmem
      refine ⟨m :: p, c,
        (mem_walkForest_iff 1 ts (m :: p) (EntryKind.file c)).mpr
          (Or.inr ⟨m, ds, hm, Or.inr ⟨p, rfl, hmem⟩⟩), ?_⟩
      rw [should_process_cons m p hp_ne pat]
      exact hsp

/-- C2: `directory_has_matching_files` returns true if and only if some
file at depth at least one in the subtree rooted at the directory passes
`should_process_file`. -/
theorem C2_directory_has_matching_files_iff (cs : List FSTree) (pat : Option Pattern) :
    directory_has_matching_files cs pat = true ↔ SubtreeHasPassingFile pat cs := by
  constructor
  · intro h
    obtain ⟨⟨p, k⟩, hmem, hpred⟩ := List.any_eq_true.mp h
    cases k with
    | file c =>
        exact walk_pass_to_subtree pat p cs c hmem
          (by simpa [EntryKind.isFile] using hpred)
    | dir => simp [EntryKind.isFile] at hpred
  · intro h
    obtain ⟨p, c, hmem, hsp⟩ := subtree_to_walk pat cs h
    exact List.any_eq_true.mpr
      ⟨(p, EntryKind.file c), hmem, by simp [EntryKind.isFile, hsp]⟩

/-- C1: with a filter pattern present, `should_process_file` matches the
pattern against the path's base file name only (so any two paths with the
same base name agree) and rejects exactly when the base name does not
match; with no filter pattern every path is accepted. -/
theorem C1_should_process_file_base_name :
    (∀ (q : List String) (n : String) (pattern : Pattern),
        should_process_file (q ++ [n]) (some pattern) = pattern.matches n) ∧
    (∀ (p q : List String) (pattern : Pattern), fileNameOf p = fileNameOf q →
        should_process_file p (some pattern) = should_process_file q (some pattern)) ∧
    (∀ p : List String, should_process_file p none = true) := by
  refine ⟨fun q n pattern => ?_, fun p q pattern h => ?_, fun p => rfl⟩
  · simp [should_process_file, fileNameOf, List.getLast?_concat]
  · simp [should_process_file, h]

/-- A compiled form of the pattern `*.rs`, used as concrete test data. -/
def patRS : Pattern :=
  ⟨[Token.anySequence, Token.char '.', Token.char 'r', Token.char 's']⟩

theorem C1_should_process_file_base_name_witness :
    should_process_file ["src", "main.rs"] (some patRS) =
      should_process_file ["other", "deep", "main.rs"] (some patRS) :=
  C1_should_process_file_base_name.2.1 ["src", "main.rs"] ["other", "deep", "main.rs"] patRS rfl

/-- The entry-processing loop with the recursive-mode
`directory_has_matching_files` guard elided: a directory differing from
the last announced one is always announced. -/
def scanLoopNG (root : List FSTree) (pat : Option Pattern)
    (lister : List String → Option String) :
    List (List String × EntryKind) → Option (List String) → List ScanEvent
  | [], _ => []
  | (p, k) :: rest, current =>
      if k.isFile && should_process_file p pat then
        let dirPath := p.dropLast
        let ann :=
          if current ≠ some dirPath then
            some (ScanEvent.dirEvent dirPath (lister dirPath))
          else none
        let current' := if ann.isSome then some dirPath else current
        ann.toList ++ fileEventsOf p k ++ scanLoopNG root pat lister rest current'
      else
        scanLoopNG root pat lister rest current

theorem scanLoopNG_cons_skip {p : List String} {k : EntryKind} {pat : Option Pattern}
    (root : List FSTree) (lister : List String → Option String)
    (rest : List (List String × EntryKind)) (current : Option (List String))
    (hp : (k.isFile && should_process_file p pat) = false) :
    scanLoopNG root pat lister ((p, k) :: rest) current =
      scanLoopNG root pat lister rest current := by
  simp [scanLoopNG, hp]

theorem scanLoopNG_cons_stay {p : List String} {k : EntryKind} {pat : Option Pattern}
    {current : Option (List String)} (root : List FSTree)
    (lister : List String → Option String) (rest : List (List String × EntryKind))
    (hp : (k.isFile && should_process_file p pat) = true)
    (hc : current = some p.dropLast) :
    scanLoopNG root pat lister ((p, k) :: rest) current =
      fileEventsOf p k ++ scanLoopNG root pat lister rest current := by
  subst hc
  simp [scanLoopNG, hp]

theorem scanLoopNG_cons_announce {p : List String} {k : EntryKind} {pat : Option Pattern}
    {current : Option (List String)} (root : List FSTree)
    (lister : List String → Option String) (rest : List (List String × EntryKind))
    (hp : (k.isFile && should_process_file p pat) = true)
    (hc : ¬(current = some p.dropLast)) :
    scanLoopNG root pat lister ((p, k) :: rest) current =
      ScanEvent.dirEvent p.dropLast (lister p.dropLast) ::
        (fileEventsOf p k ++ scanLoopNG root pat lister rest (some p.dropLast)) := by
  simp [scanLoopNG, hp, hc]

/-- A recursive-mode scan in which every not-yet-current directory is
announced unconditionally. -/
def scanNG (cs : List FSTree) (pat : Option Pattern)
    (lister : List String → Option String) : List ScanEvent :=
  scanLoopNG cs pat lister (walkForest none 1 [] cs) none

theorem scanLoop_eq_scanLoopNG (cs : List FSTree) (pat : Option Pattern)
    (lister : List String → Option String) (hwf : wfForest cs = true) :
    ∀ (entries : List (List String × EntryKind)) (current : Option (List String)),
      (∀ e ∈ entries, e ∈ walkForest none 1 [] cs) →
      scanLoop true cs pat lister entries current = scanLoopNG cs pat lister entries current := by
  intro entries
  induction entries with
  | nil => intro current _; rfl
  | cons e rest ih =>
      intro current hmem
      obtain ⟨p, k⟩ := e
      have hrest : ∀ e ∈ rest, e ∈ walkForest none 1 [] cs :=
        fun e he => hmem e (List.mem_cons_of_mem _ he)
      by_cases hpass : (k.isFile && should_process_file p pat) = true
      · obtain ⟨c, rfl⟩ : ∃ c, k = EntryKind.file c := by
          cases k with
          | file c => exact ⟨c, rfl⟩
          | dir => simp [EntryKind.isFile] at hpass
        have hg : dirHasMatchAt cs p.dropLast pat = true :=
          guard_holds cs pat p c hwf (hmem _ (List.mem_cons_self _ _))
            (by simpa [EntryKind.isFile] using hpass)
        by_cases hcur : current = some p.dropLast
        · rw [scanLoop_cons_stay true cs lister rest hpass hcur,
            scanLoopNG_cons_stay cs lister rest hpass hcur, ih _ hrest]
        · rw [scanLoop_cons_announce lister rest hpass hcur (by simp [hg]),
            scanLoopNG_cons_announce cs lister rest hpass hcur, ih _ hrest]
      · rw [scanLoop_cons_skip true cs lister rest current (Bool.not_eq_true _ ▸ hpass),
          scanLoopNG_cons_skip cs lister rest current (Bool.not_eq_true _ ▸ hpass),
          ih _ hrest]

/-- C10: a file that passes `should_process_file` makes
`directory_has_matching_files` true for its parent directory, so the
recursive-mode guard consulted before announcing a directory always holds
where it is evaluated: eliding it does not change the scan. -/
theorem C10_guard_always_satisfied :
    (∀ (cs : List FSTree) (pat : Option Pattern) (p : List String) (c : Option String),
        wfForest cs = true →
        (p, EntryKind.file c) ∈ walkForest none 1 [] cs →
        should_process_file p pat = true →
        dirHasMatchAt cs p.dropLast pat = true) ∧
    (∀ (cs : List FSTree) (pat : Option Pattern) (lister : List String → Option String),
        wfForest cs = true →
        scan true cs pat lister = scanNG cs pat lister) :=
  ⟨fun cs pat p c hwf hmem hpass => guard_holds cs pat p c hwf hmem hpass,
   fun cs pat lister hwf =>
     scanLoop_eq_scanLoopNG cs pat lister hwf (walkForest none 1 [] cs) none (fun _ he => he)⟩

/-- Concrete tree with a file, a subdirectory holding a file, and a second
file, used as test data for the scan theorems. -/
def cexTree : List FSTree :=
  [FSTree.file "a.rs" (some "A"),
   FSTree.dir "sub" [FSTree.file "c.rs" (some "C")],
   FSTree.file "b.rs" (some "B")]

theorem C10_guard_always_satisfied_witness :
    dirHasMatchAt cexTree (["a.rs"].dropLast) none = true ∧
      scan true cexTree none (fun _ => none) = scanNG cexTree none (fun _ => none) :=
  ⟨C10_guard_always_satisfied.1 cexTree none ["a.rs"] (some "A") (by rfl)
      (by decide) (by rfl),
   C10_guard_always_satisfied.2 cexTree none (fun _ => none) (by rfl)⟩

/-- C3 counterexample: in a recursive scan of a root containing `a.rs`,
`sub/c.rs` and `b.rs` (no filter), the root directory is announced twice:
traversal interleaves `sub/c.rs` between the root's two files and the
scanner only remembers the most recently announced directory. -/
theorem C3_counterexample_root_announced_twice :
    (scan true cexTree none (fun _ => none)).countP
      (fun ev => match ev with
        | ScanEvent.dirEvent [] _ => true
        | _ => false) = 2 := by
  rfl

/-- The announcement discipline the scan actually maintains, tracked
against the most recently announced directory: a directory announcement is
never the same as the immediately preceding one, and every file event's
parent is exactly the most recently announced directory. -/
def coveredFrom : Option (List String) → List ScanEvent → Prop
  | _, [] => True
  | last, ScanEvent.dirEvent q _ :: rest => ¬(last = some q) ∧ coveredFrom (some q) rest
  | last, ScanEvent.fileEvent q _ :: rest => last = some q.dropLast ∧ coveredFrom last rest

theorem scanLoop_covered (r : Bool) (cs : List FSTree) (pat : Option Pattern)
    (lister : List String → Option String) (hwf : wfForest cs = true) :
    ∀ (entries : List (List String × EntryKind)) (current : Option (List String)),
      (r = true → ∀ e ∈ entries, e ∈ walkForest none 1 [] cs) →
      coveredFrom current (scanLoop r cs pat lister entries current) := by
  intro entries
  induction entries with
  | nil => intro current _; exact trivial
  | cons e rest ih =>
      intro current hmem
      obtain ⟨p, k⟩ := e
      have hrest : r = true → ∀ e ∈ rest, e ∈ walkForest none 1 [] cs :=
        fun hr e he => hmem hr e (List.mem_cons_of_mem _ he)
      by_cases hpass : (k.isFile && should_process_file p pat) = true
      · obtain ⟨c, rfl⟩ : ∃ c, k = EntryKind.file c := by
          cases k with
          | file c => exact ⟨c, rfl⟩
          | dir => simp [EntryKind.isFile] at hpass
        by_cases hcur : current = some p.dropLast
        · rw [scanLoop_cons_stay r cs lister rest hpass hcur]
          cases c with
          | some s =>
              rw [show fileEventsOf p (EntryKind.file (some s)) =
                [ScanEvent.fileEvent p s] from rfl]
              exact ⟨hcur, ih current hrest⟩
          | none =>
              rw [show fileEventsOf p (EntryKind.file none) = ([] : List ScanEvent) from rfl]
              exact ih current hrest
        · have hguard : (!r || dirHasMatchAt cs p.dropLast pat) = true := by
            cases r with
            | false => rfl
            | true =>
                have hg := guard_holds cs pat p c hwf
                  (hmem rfl _ (List.mem_cons_self _ _))
                  (by simpa [EntryKind.isFile] using hpass)
                simp [hg]
          rw [scanLoop_cons_announce lister rest hpass hcur hguard]
          refine ⟨hcur, ?_⟩
          cases c with
          | some s =>
              rw [show fileEventsOf p (EntryKind.file (some s)) =
                [ScanEvent.fileEvent p s] from rfl]
              exact ⟨rfl, ih (some p.dropLast) hrest⟩
          | none =>
              rw [show fileEventsOf p (EntryKind.file none) = ([] : List ScanEvent) from rfl]
              exact ih (some p.dropLast) hrest
      · rw [scanLoop_cons_skip r cs lister rest current (Bool.not_eq_true _ ▸ hpass)]
        exact ih current hrest

/-- C3 amended: a directory announcement is emitted exactly when a passing
file's parent differs from the most recently announced directory, so no
two consecutive announcements name the same directory and every file event
is covered by an announcement of exactly its parent with no other
announcement in between; a directory may however be announced more than
once in a scan when its passing files are interleaved with files of other
directories. -/
theorem C3_amended_announcement_discipline (r : Bool) (cs : List FSTree)
    (pat : Option Pattern) (lister : List String → Option String)
    (hwf : wfForest cs = true) :
    coveredFrom none (scan r cs pat lister) := by
  cases r with
  | true =>
      exact scanLoop_covered true cs pat lister hwf (walkForest none 1 [] cs) none
        (fun _ e he => he)
  | false =>
      exact scanLoop_covered false cs pat lister hwf
        (walkForest (some 1) 1 [] cs) none (fun h => by cases h)

theorem C3_amended_announcement_discipline_witness :
    coveredFrom none (scan true cexTree none (fun _ => none)) :=
  C3_amended_announcement_discipline true cexTree none (fun _ => none) (by rfl)

theorem walk_depth1_length (ts : List FSTree) :
    ∀ e ∈ walkForest (some 1) 1 [] ts, (e : List String × EntryKind).1.length = 1 := by
  induction ts with
  | nil => simp [walkForest]
  | cons t ts ih =>
      intro e he
      rcases List.mem_append.mp he with he | he
      · cases t with
        | file n c =>
            simp only [walkNode, List.nil_append, List.mem_singleton] at he
            subst he; rfl
        | dir n cs =>
            have he' : e = ([n], EntryKind.dir) := by
              simpa [walkNode, descendOK] using he
            subst he'
            rfl
      · exact ih e he

theorem scanLoop_depth_bound (cs : List FSTree) (pat : Option Pattern)
    (lister : List String → Option String) :
    ∀ (entries : List (List String × EntryKind)) (current : Option (List String)),
      (∀ e ∈ entries, (e : List String × EntryKind).1.length = 1) →
      (current = none ∨ current = some []) →
      ∀ ev ∈ scanLoop false cs pat lister entries current,
        (∀ p l, ev = ScanEvent.dirEvent p l → p = []) ∧
        (∀ p c, ev = ScanEvent.fileEvent p c → p.length = 1) := by
  intro entries
  induction entries with
  | nil => intro current _ _ ev hev; simp [scanLoop] at hev
  | cons e rest ih =>
      intro current hlen hcur ev hev
      obtain ⟨p, k⟩ := e
      have hrest : ∀ e ∈ rest, (e : List String × EntryKind).1.length = 1 :=
        fun e he => hlen e (List.mem_cons_of_mem _ he)
      have hp1 : p.length = 1 := hlen (p, k) (List.mem_cons_self _ _)
      have hdp : p.dropLast = [] := by
        cases p with
        | nil => simp at hp1
        | cons a p' => cases p' with
          | nil => rfl
          | cons b p'' => simp at hp1
      by_cases hpass : (k.isFile && should_process_file p pat) = true
      · by_cases hc : current = some p.dropLast
        · rw [scanLoop_cons_stay false cs lister rest hpass hc] at hev
          rcases List.mem_append.mp hev with hev | hev
          · cases k with
            | file c =>
                cases c with
                | some s =>
                    simp only [fileEventsOf, List.mem_singleton] at hev
                    subst hev
                    exact ⟨(fun p' l h => nomatch h), (fun p' c h => by cases h; exact hp1)⟩
                | none => simp [fileEventsOf] at hev
            | dir => simp [fileEventsOf] at hev
          · exact ih current hrest hcur ev hev
        · rw [scanLoop_cons_announce lister rest hpass hc (by rfl)] at hev
          rcases List.mem_cons.mp hev with rfl | hev
          · exact ⟨fun p' l h => by cases h; exact hdp, fun p' c h => nomatch h⟩
          · rcases List.mem_append.mp hev with hev | hev
            · cases k with
              | file c =>
                  cases c with
                  | some s =>
                      simp only [fileEventsOf, List.mem_singleton] at hev
                      subst hev
                      exact ⟨(fun p' l h => nomatch h), (fun p' c h => by cases h; exact hp1)⟩
                  | none => simp [fileEventsOf] at hev
              | dir => simp [fileEventsOf] at hev
            · exact ih (some p.dropLast) hrest (Or.inr (by rw [hdp])) ev hev
      · rw [scanLoop_cons_skip false cs lister rest current (Bool.not_eq_true _ ▸ hpass)] at hev
        exact ih current hrest hcur ev hev

/-- C5: without the recursive flag the scan walks only the immediate
children of the root, so every file event names a path at depth one and
every directory announcement names the root itself; no event concerns a
node below depth one. -/
theorem C5_nonrecursive_depth_bound (cs : List FSTree) (pat : Option Pattern)
    (lister : List String → Option String) :
    ∀ ev ∈ scan false cs pat lister,
      (∀ p l, ev = ScanEvent.dirEvent p l → p = []) ∧
      (∀ p c, ev = ScanEvent.fileEvent p c → p.length = 1) := by
  intro ev hev
  exact scanLoop_depth_bound cs pat lister (walkForest (some 1) 1 [] cs) none
    (walk_depth1_length cs) (Or.inl rfl) ev hev

theorem C5_nonrecursive_depth_bound_witness :
    (∀ p l, ScanEvent.dirEvent [] (none : Option String) = ScanEvent.dirEvent p l → p = []) ∧
    (∀ p c, ScanEvent.dirEvent [] (none : Option String) = ScanEvent.fileEvent p c →
      p.length = 1) :=
  C5_nonrecursive_depth_bound cexTree none (fun _ => none)
    (ScanEvent.dirEvent [] none) (by decide)

/-- C6: a malformed filter pattern such as `[abc` fails `Pattern::new`, and
`mainRun` then aborts with the `Invalid filter pattern` error before the
clipboard is touched and before any traversal, producing no scan events
regardless of the directory tree. -/
theorem C6_malformed_filter_fatal :
    (∃ e, Pattern.new "[abc" = Except.error e) ∧
    (∀ (args : Args) (f : String) (e : PatternError)
        (clipInit : Except String Unit) (cs : List FSTree)
        (lister : List String → Option String),
        args.filter = some f → Pattern.new f = Except.error e →
        mainRun args clipInit cs lister = Except.error "Invalid filter pattern") := by
  constructor
  · exact ⟨⟨0, errorInvalidRange⟩, by simp [Pattern.new, patNewLoop]⟩
  · intro args f e clip cs lister hf he
    simp [mainRun, hf, he]

theorem C6_malformed_filter_fatal_witness :
    mainRun (Args.mk true (some "[abc")) (Except.ok ()) cexTree (fun _ => none) =
      Except.error "Invalid filter pattern" :=
  C6_malformed_filter_fatal.2 (Args.mk true (some "[abc")) "[abc" ⟨0, errorInvalidRange⟩
    (Except.ok ()) cexTree (fun _ => none) rfl (by simp [Pattern.new, patNewLoop])

/-- Replace the listing payload of every directory event by the given
lister's answer, leaving file events untouched. -/
def refillListing (lister : List String → Option String) : ScanEvent → ScanEvent
  | ScanEvent.dirEvent p _ => ScanEvent.dirEvent p (lister p)
  | ev => ev

theorem map_refill_fileEventsOf (lister : List String → Option String)
    (p : List String) (k : EntryKind) :
    (fileEventsOf p k).map (refillListing lister) = fileEventsOf p k := by
  cases k with
  | file c => cases c <;> simp [fileEventsOf, refillListing]
  | dir => simp [fileEventsOf]

theorem scanLoop_lister_skeleton (r : Bool) (cs : List FSTree) (pat : Option Pattern)
    (lister : List String → Option String) :
    ∀ (entries : List (List String × EntryKind)) (current : Option (List String)),
      scanLoop r cs pat lister entries current =
        (scanLoop r cs pat (fun _ => none) entries current).map (refillListing lister) := by
  intro entries
  induction entries with
  | nil => intro current; rfl
  | cons e rest ih =>
      intro current
      obtain ⟨p, k⟩ := e
      by_cases hpass : (k.isFile && should_process_file p pat) = true
      · by_cases hc : current = some p.dropLast
        · rw [scanLoop_cons_stay r cs lister rest hpass hc,
            scanLoop_cons_stay r cs (fun _ => none) rest hpass hc,
            List.map_append, map_refill_fileEventsOf, ih current]
        · by_cases hg : (!r || dirHasMatchAt cs p.dropLast pat) = true
          · rw [scanLoop_cons_announce lister rest hpass hc hg,
              scanLoop_cons_announce (fun _ => none) rest hpass hc hg,
              List.map_cons, List.map_append, map_refill_fileEventsOf, ih (some p.dropLast)]
            rfl
          · rw [scanLoop_cons_blocked lister rest hpass hc (Bool.not_eq_true _ ▸ hg),
              scanLoop_cons_blocked (fun _ => none) rest hpass hc (Bool.not_eq_true _ ▸ hg),
              List.map_append, map_refill_fileEventsOf, ih current]
      · rw [scanLoop_cons_skip r cs lister rest current (Bool.not_eq_true _ ▸ hpass),
          scanLoop_cons_skip r cs (fun _ => none) rest current (Bool.not_eq_true _ ▸ hpass),
          ih current]

/-- C8: the scan is independent of whether directory listings can be
obtained: a failing lister yields exactly the same event sequence with the
listing bodies absent, and a directory event without a listing still
renders as its full header line with only the body omitted. -/
theorem C8_listing_failure_keeps_header :
    (∀ (r : Bool) (cs : List FSTree) (pat : Option Pattern)
        (lister : List String → Option String),
        scan r cs pat lister =
          (scan r cs pat (fun _ => none)).map (refillListing lister)) ∧
    (∀ p : List String,
        renderEvent (ScanEvent.dirEvent p none) =
          "\n=== Directory: " ++ pathStr p ++ " ===\n") := by
  constructor
  · intro r cs pat lister
    exact scanLoop_lister_skeleton r cs pat lister _ none
  · intro p
    simp [renderEvent]

/-- Rewrite one node so that the file at the given relative path (if the
path points into this node) gets content `v`; everything else unchanged. -/
def setContentNode (v : Option String) : List String → FSTree → FSTree
  | [n], FSTree.file m c => if m = n then FSTree.file m v else FSTree.file m c
  | n :: r :: rest, FSTree.dir m ds =>
      if m = n then FSTree.dir m (ds.map (setContentNode v (r :: rest)))
      else FSTree.dir m ds
  | _, t => t

/-- Make the file at path `p` have content `v` (unreadable when `none`);
all other nodes are unchanged. -/
def setContentF (v : Option String) (p : List String) (cs : List FSTree) : List FSTree :=
  match p with
  | [] => cs
  | _ => cs.map (setContentNode v p)

/-- The corresponding rewrite of one traversal entry. -/
def setKind (v : Option String) : EntryKind → EntryKind
  | EntryKind.file _ => EntryKind.file v
  | EntryKind.dir => EntryKind.dir

/-- Adjust a walk entry: replace the content carried by the entry at path
`p`, leave all other entries alone. -/
def adjustEntry (p : List String) (v : Option String)
    (e : List String × EntryKind) : List String × EntryKind :=
  if e.1 = p then (e.1, setKind v e.2) else e

theorem setKind_isFile (v : Option String) (k : EntryKind) :
    (setKind v k).isFile = k.isFile := by
  cases k <;> rfl

theorem setContentNode_name (v : Option String) (p : List String) (t : FSTree) :
    (setContentNode v p t).name = t.name := by
  match p, t with
  | [], t => rfl
  | [n], FSTree.file m c =>
      by_cases h : m = n <;> simp [setContentNode, FSTree.name, h]
  | [n], FSTree.dir m ds => rfl
  | n :: r :: rest, FSTree.file m c => rfl
  | n :: r :: rest, FSTree.dir m ds =>
      by_cases h : m = n <;> simp [setContentNode, FSTree.name, h]

theorem adjustEntry_ne (p : List String) (v : Option String)
    (e : List String × EntryKind) (h : e.1 ≠ p) : adjustEntry p v e = e := by
  simp [adjustEntry, h]

theorem adjustEntry_dir (p : List String) (v : Option String) (q : List String) :
    adjustEntry p v (q, EntryKind.dir) = (q, EntryKind.dir) := by
  by_cases h : q = p <;> simp [adjustEntry, setKind, h]

theorem map_adjustEntry_of_ne (p : List String) (v : Option String)
    (l : List (List String × EntryKind)) (h : ∀ e ∈ l, (e : List String × EntryKind).1 ≠ p) :
    l.map (adjustEntry p v) = l := by
  induction l with
  | nil => rfl
  | cons e l ih =>
      rw [List.map_cons, adjustEntry_ne p v e (h e (List.mem_cons_self _ _)),
        ih (fun e' he' => h e' (List.mem_cons_of_mem _ he'))]

theorem map_congr_mem {α β : Type} (l : List α) (f g : α → β)
    (h : ∀ a ∈ l, f a = g a) : l.map f = l.map g := by
  induction l with
  | nil => rfl
  | cons a l ih =>
      rw [List.map_cons, List.map_cons, h a (List.mem_cons_self _ _),
        ih (fun a' ha' => h a' (List.mem_cons_of_mem _ ha'))]

mutual

theorem walkNode_setContent (v : Option String) (p : List String) (hp : p ≠ [])
    (maxD : Option Nat) (d : Nat) (t : FSTree) :
    walkNode maxD d [] (setContentNode v p t) =
      (walkNode maxD d [] t).map (adjustEntry p v) := by
  match p, t with
  | [n], FSTree.file m c =>
      by_cases h : m = n <;>
        simp [setContentNode, walkNode, adjustEntry, setKind, h]
  | [n], FSTree.dir m ds =>
      rw [show setContentNode v [n] (FSTree.dir m ds) = FSTree.dir m ds from rfl]
      simp only [walkNode, List.nil_append, List.map_cons, adjustEntry_dir]
      cases hD : descendOK maxD (d + 1) with
      | false => simp
      | true =>
          simp only [if_true]
          congr 1
          symm
          apply map_adjustEntry_of_ne
          intro e he
          rw [walkForest_shift maxD (d + 1) [m] ds] at he
          rcases List.mem_map.mp he with ⟨e', he', rfl⟩
          have hne := walkForest_path_ne_nil maxD (d + 1) ds e' he'
          cases hq : e'.1 with
          | nil => exact absurd hq hne
          | cons a l => simp [hq]
  | n :: r :: rest, FSTree.file m c =>
      simp [setContentNode, walkNode, adjustEntry]
  | n :: r :: rest, FSTree.dir m ds =>
      by_cases h : m = n
      · subst h
        rw [show setContentNode v (m :: r :: rest) (FSTree.dir m ds) =
          FSTree.dir m (ds.map (setContentNode v (r :: rest))) by simp [setContentNode]]
        simp only [walkNode, List.nil_append, List.map_cons, adjustEntry_dir]
        cases hD : descendOK maxD (d + 1) with
        | false => simp
        | true =>
            simp only [if_true]
            congr 1
            rw [walkForest_shift maxD (d + 1) [m] (ds.map (setContentNode v (r :: rest))),
              walkForest_setContent v (r :: rest) (by simp) maxD (d + 1) ds,
              walkForest_shift maxD (d + 1) [m] ds, List.map_map, List.map_map]
            apply map_congr_mem
            intro e _
            by_cases he1 : e.1 = r :: rest <;>
              simp [Function.comp_def, adjustEntry, he1]
      · rw [show setContentNode v (n :: r :: rest) (FSTree.dir m ds) =
          FSTree.dir m ds by simp [setContentNode, h]]
        simp only [walkNode, List.nil_append, List.map_cons, adjustEntry_dir]
        cases hD : descendOK maxD (d + 1) with
        | false => simp
        | true =>
            simp only [if_true]
            congr 1
            symm
            apply map_adjustEntry_of_ne
            intro e he
            rw [walkForest_shift maxD (d + 1) [m] ds] at he
            rcases List.mem_map.mp he with ⟨e', _, rfl⟩
            simp [h]
termination_by (p.length, sizeOf t)

theorem walkForest_setContent (v : Option String) (p : List String) (hp : p ≠ [])
    (maxD : Option Nat) (d : Nat) (cs : List FSTree) :
    walkForest maxD d [] (cs.map (setContentNode v p)) =
      (walkForest maxD d [] cs).map (adjustEntry p v) := by
  match cs with
  | [] => rfl
  | t :: ts =>
      rw [List.map_cons]
      show walkNode maxD d [] (setContentNode v p t) ++
          walkForest maxD d [] (ts.map (setContentNode v p)) = _
      rw [walkNode_setContent v p hp maxD d t, walkForest_setContent v p hp maxD d ts,
        show walkForest maxD d [] (t :: ts) =
          walkNode maxD d [] t ++ walkForest maxD d [] ts from rfl,
        List.map_append]
termination_by (p.length, sizeOf cs)

end

theorem find?_name_map (g : FSTree → FSTree) (hg : ∀ t, (g t).name = t.name)
    (cs : List FSTree) (n : String) :
    (cs.map g).find? (fun t => t.name == n) = (cs.find? (fun t => t.name == n)).map g := by
  induction cs with
  | nil => rfl
  | cons t ts ih =>
      simp only [List.map_cons, List.find?_cons, hg]
      cases ht : (t.name == n) with
      | false => simp [ht, ih]
      | true => simp [ht]

theorem dirHasMatchAt_setContent (v : Option String) (pat : Option Pattern) :
    ∀ (q p : List String) (cs : List FSTree),
      dirHasMatchAt (setContentF v p cs) q pat = dirHasMatchAt cs q pat := by
  intro q
  induction q with
  | nil =>
      intro p cs
      simp only [dirHasMatchAt, forestAt]
      cases p with
      | nil => rfl
      | cons n p' =>
          rw [show setContentF v (n :: p') cs = cs.map (setContentNode v (n :: p')) from rfl]
          unfold directory_has_matching_files
          rw [walkForest_setContent v (n :: p') (by simp) none 1 cs, List.any_map]
          congr 1
          funext e
          by_cases h : e.1 = (n :: p') <;>
            simp [adjustEntry, h, Function.comp_def, setKind_isFile]
  | cons m q' ihq =>
      intro p cs
      cases p with
      | nil => rfl
      | cons n p' =>
          rw [show setContentF v (n :: p') cs = cs.map (setContentNode v (n :: p')) from rfl]
          simp only [dirHasMatchAt, forestAt]
          rw [find?_name_map (setContentNode v (n :: p')) (setContentNode_name v (n :: p')) cs m]
          cases hf : cs.find? (fun t => t.name == m) with
          | none => rfl
          | some t =>
              cases t with
              | file m' c =>
                  cases p' with
                  | nil => by_cases h : m' = n <;> simp [setContentNode, h]
                  | cons r rest => simp [setContentNode]
              | dir m' ds =>
                  cases p' with
                  | nil => simp [setContentNode]
                  | cons r rest =>
                      by_cases h : m' = n
                      · subst h
                        rw [show Option.map (setContentNode v (m' :: r :: rest))
                              (some (FSTree.dir m' ds)) =
                            some (FSTree.dir m' (ds.map (setContentNode v (r :: rest)))) by
                              simp [setContentNode]]
                        have hrec := ihq (r :: rest) ds
                        simp only [dirHasMatchAt,
                          show setContentF v (r :: rest) ds =
                            ds.map (setContentNode v (r :: rest)) from rfl] at hrec
                        exact hrec
                      · simp [setContentNode, h]

/-- Drop the file events of the file at path `p`, keeping every other
event. -/
def removeFileAt (p : List String) (evs : List ScanEvent) : List ScanEvent :=
  evs.filter (fun ev =>
    match ev with
    | ScanEvent.fileEvent q _ => q != p
    | _ => true)

/-- Just the directory announcements of an event sequence. -/
def dirAnnouncements (evs : List ScanEvent) : List ScanEvent :=
  evs.filter (fun ev =>
    match ev with
    | ScanEvent.dirEvent _ _ => true
    | _ => false)

theorem removeFileAt_append (p : List String) (a b : List ScanEvent) :
    removeFileAt p (a ++ b) = removeFileAt p a ++ removeFileAt p b := by
  unfold removeFileAt
  simp [List.filter_append]

theorem dirAnnouncements_cons_dir (q : List String) (l : Option String)
    (evs : List ScanEvent) :
    dirAnnouncements (ScanEvent.dirEvent q l :: evs) =
      ScanEvent.dirEvent q l :: dirAnnouncements evs := by
  simp [dirAnnouncements]

theorem dirAnnouncements_cons_file (q : List String) (c : String)
    (evs : List ScanEvent) :
    dirAnnouncements (ScanEvent.fileEvent q c :: evs) = dirAnnouncements evs := by
  simp [dirAnnouncements]

theorem removeFileAt_dirEvent_cons (p q : List String) (l : Option String)
    (evs : List ScanEvent) :
    removeFileAt p (ScanEvent.dirEvent q l :: evs) =
      ScanEvent.dirEvent q l :: removeFileAt p evs := by
  simp [removeFileAt]

theorem removeFileAt_fileEventsOf_ne (p q : List String) (k : EntryKind) (h : q ≠ p) :
    removeFileAt p (fileEventsOf q k) = fileEventsOf q k := by
  cases k with
  | file c =>
      cases c with
      | some s => simp [removeFileAt, fileEventsOf, List.filter_cons, h]
      | none => rfl
  | dir => rfl

theorem removeFileAt_fileEventsOf_self (p : List String) (k : EntryKind) (s : String) :
    removeFileAt p (fileEventsOf p (setKind (some s) k)) =
      fileEventsOf p (setKind none k) := by
  cases k with
  | file c => simp [setKind, fileEventsOf, removeFileAt, List.filter_cons]
  | dir => rfl

theorem dirAnnouncements_removeFileAt (p : List String) (evs : List ScanEvent) :
    dirAnnouncements (removeFileAt p evs) = dirAnnouncements evs := by
  induction evs with
  | nil => rfl
  | cons ev evs ih =>
      cases ev with
      | dirEvent q l =>
          rw [removeFileAt_dirEvent_cons, dirAnnouncements_cons_dir,
            dirAnnouncements_cons_dir, ih]
      | fileEvent q c =>
          by_cases h : (q != p) = true
          · rw [show removeFileAt p (ScanEvent.fileEvent q c :: evs) =
                ScanEvent.fileEvent q c :: removeFileAt p evs by
                  simp [removeFileAt, List.filter_cons, h],
              dirAnnouncements_cons_file, dirAnnouncements_cons_file, ih]
          · rw [show removeFileAt p (ScanEvent.fileEvent q c :: evs) =
                removeFileAt p evs by simp [removeFileAt, List.filter_cons, h],
              dirAnnouncements_cons_file, ih]

theorem scanLoop_unreadable (r : Bool) (cs1 cs2 : List FSTree) (pat : Option Pattern)
    (lister : List String → Option String) (p : List String) (s : String)
    (hg : ∀ q, dirHasMatchAt cs1 q pat = dirHasMatchAt cs2 q pat) :
    ∀ (entries : List (List String × EntryKind)) (current : Option (List String)),
      scanLoop r cs1 pat lister (entries.map (adjustEntry p none)) current =
        removeFileAt p (scanLoop r cs2 pat lister (entries.map (adjustEntry p (some s))) current) := by
  intro entries
  induction entries with
  | nil => intro current; rfl
  | cons e rest ih =>
      intro current
      obtain ⟨q, k⟩ := e
      rw [List.map_cons, List.map_cons]
      by_cases hq : q = p
      · subst hq
        rw [show adjustEntry q none (q, k) = (q, setKind none k) by simp [adjustEntry],
          show adjustEntry q (some s) (q, k) = (q, setKind (some s) k) by simp [adjustEntry]]
        by_cases hpass : (k.isFile && should_process_file q pat) = true
        · have hp1 : ((setKind none k).isFile && should_process_file q pat) = true := by
            rw [setKind_isFile]; exact hpass
          have hp2 : ((setKind (some s) k).isFile && should_process_file q pat) = true := by
            rw [setKind_isFile]; exact hpass
          by_cases hc : current = some q.dropLast
          · rw [scanLoop_cons_stay r cs1 lister _ hp1 hc,
              scanLoop_cons_stay r cs2 lister _ hp2 hc,
              removeFileAt_append, removeFileAt_fileEventsOf_self, ih current]
          · by_cases hgd : (!r || dirHasMatchAt cs1 q.dropLast pat) = true
            · rw [scanLoop_cons_announce lister _ hp1 hc hgd,
                scanLoop_cons_announce lister _ hp2 hc (by rw [← hg]; exact hgd),
                removeFileAt_dirEvent_cons, removeFileAt_append,
                removeFileAt_fileEventsOf_self, ih (some q.dropLast)]
            · rw [scanLoop_cons_blocked lister _ hp1 hc (Bool.not_eq_true _ ▸ hgd),
                scanLoop_cons_blocked lister _ hp2 hc
                  (by rw [← hg]; exact Bool.not_eq_true _ ▸ hgd),
                removeFileAt_append, removeFileAt_fileEventsOf_self, ih current]
        · have hp1 : ((setKind none k).isFile && should_process_file q pat) = false := by
            rw [setKind_isFile]; exact Bool.not_eq_true _ ▸ hpass
          have hp2 : ((setKind (some s) k).isFile && should_process_file q pat) = false := by
            rw [setKind_isFile]; exact Bool.not_eq_true _ ▸ hpass
          rw [scanLoop_cons_skip r cs1 lister _ current hp1,
            scanLoop_cons_skip r cs2 lister _ current hp2, ih current]
      · rw [adjustEntry_ne p none (q, k) hq, adjustEntry_ne p (some s) (q, k) hq]
        by_cases hpass : (k.isFile && should_process_file q pat) = true
        · by_cases hc : current = some q.dropLast
          · rw [scanLoop_cons_stay r cs1 lister _ hpass hc,
              scanLoop_cons_stay r cs2 lister _ hpass hc,
              removeFileAt_append, removeFileAt_fileEventsOf_ne p q k hq, ih current]
          · by_cases hgd : (!r || dirHasMatchAt cs1 q.dropLast pat) = true
            · rw [scanLoop_cons_announce lister _ hpass hc hgd,
                scanLoop_cons_announce lister _ hpass hc (by rw [← hg]; exact hgd),
                removeFileAt_dirEvent_cons, removeFileAt_append,
                removeFileAt_fileEventsOf_ne p q k hq, ih (some q.dropLast)]
            · rw [scanLoop_cons_blocked lister _ hpass hc (Bool.not_eq_true _ ▸ hgd),
                scanLoop_cons_blocked lister _ hpass hc
                  (by rw [← hg]; exact Bool.not_eq_true _ ▸ hgd),
                removeFileAt_append, removeFileAt_fileEventsOf_ne p q k hq, ih current]
        · rw [scanLoop_cons_skip r cs1 lister _ current (Bool.not_eq_true _ ▸ hpass),
            scanLoop_cons_skip r cs2 lister _ current (Bool.not_eq_true _ ▸ hpass),
            ih current]

/-- C7: making the file at `p` unreadable changes a scan only by removing
that file's events: no header or body for it, every other event — in
particular every directory announcement, including one triggered by that
very file — survives unchanged, and traversal continues with the
remaining entries. -/
theorem C7_unreadable_file_skipped (r : Bool) (cs : List FSTree) (pat : Option Pattern)
    (lister : List String → Option String) (p : List String) (s : String) (hp : p ≠ []) :
    scan r (setContentF none p cs) pat lister =
      removeFileAt p (scan r (setContentF (some s) p cs) pat lister) ∧
    dirAnnouncements (scan r (setContentF none p cs) pat lister) =
      dirAnnouncements (scan r (setContentF (some s) p cs) pat lister) := by
  have hset : ∀ v : Option String, setContentF v p cs = cs.map (setContentNode v p) := by
    intro v
    cases p with
    | nil => exact absurd rfl hp
    | cons n p' => rfl
  have hmain : scan r (setContentF none p cs) pat lister =
      removeFileAt p (scan r (setContentF (some s) p cs) pat lister) := by
    unfold scan
    rw [hset none, hset (some s),
      walkForest_setContent none p hp (if r then none else some 1) 1 cs,
      walkForest_setContent (some s) p hp (if r then none else some 1) 1 cs]
    rw [← hset none, ← hset (some s)]
    exact scanLoop_unreadable r (setContentF none p cs) (setContentF (some s) p cs)
      pat lister p s
      (fun q => by rw [dirHasMatchAt_setContent, dirHasMatchAt_setContent])
      (walkForest (if r then none else some 1) 1 [] cs) none
  exact ⟨hmain, by rw [hmain, dirAnnouncements_removeFileAt]⟩

theorem C7_unreadable_file_skipped_witness :
    (scan true (setContentF none ["u.rs"] [FSTree.file "u.rs" (some "OLD")]) none
        (fun _ => none) =
      removeFileAt ["u.rs"]
        (scan true (setContentF (some "NEW") ["u.rs"] [FSTree.file "u.rs" (some "OLD")]) none
          (fun _ => none))) ∧
    (dirAnnouncements
        (scan true (setContentF none ["u.rs"] [FSTree.file "u.rs" (some "OLD")]) none
          (fun _ => none)) =
      dirAnnouncements
        (scan true (setContentF (some "NEW") ["u.rs"] [FSTree.file "u.rs" (some "OLD")]) none
          (fun _ => none))) :=
  C7_unreadable_file_skipped true [FSTree.file "u.rs" (some "OLD")] none
    (fun _ => none) ["u.rs"] "NEW" (by decide)

theorem scanLoop_complete (r : Bool) (root : List FSTree) (pat : Option Pattern)
    (lister : List String → Option String) :
    ∀ (entries : List (List String × EntryKind)) (current : Option (List String))
      (q : List String) (c : String),
      (q, EntryKind.file (some c)) ∈ entries →
      should_process_file q pat = true →
      ScanEvent.fileEvent q c ∈ scanLoop r root pat lister entries current := by
  intro entries
  induction entries with
  | nil => intro current q c hmem _; simp at hmem
  | cons e rest ih =>
      intro current q c hmem hpass
      obtain ⟨p, k⟩ := e
      rcases List.mem_cons.mp hmem with he | hmem'
      · rcases Prod.mk.injEq .. ▸ he with ⟨rfl, rfl⟩
        have hp : ((EntryKind.file (some c)).isFile && should_process_file q pat) = true := by
          show (true && should_process_file q pat) = true
          rw [Bool.true_and]
          exact hpass
        have hfe : ScanEvent.fileEvent q c ∈ fileEventsOf q (EntryKind.file (some c)) := by
          simp [fileEventsOf]
        by_cases hc : current = some q.dropLast
        · rw [scanLoop_cons_stay r root lister rest hp hc]
          exact List.mem_append.mpr (Or.inl hfe)
        · by_cases hgd : (!r || dirHasMatchAt root q.dropLast pat) = true
          · rw [scanLoop_cons_announce lister rest hp hc hgd]
            exact List.mem_cons_of_mem _ (List.mem_append.mpr (Or.inl hfe))
          · rw [scanLoop_cons_blocked lister rest hp hc (Bool.not_eq_true _ ▸ hgd)]
            exact List.mem_append.mpr (Or.inl hfe)
      · by_cases hp : (k.isFile && should_process_file p pat) = true
        · by_cases hc : current = some p.dropLast
          · rw [scanLoop_cons_stay r root lister rest hp hc]
            exact List.mem_append.mpr (Or.inr (ih current q c hmem' hpass))
          · by_cases hgd : (!r || dirHasMatchAt root p.dropLast pat) = true
            · rw [scanLoop_cons_announce lister rest hp hc hgd]
              exact List.mem_cons_of_mem _
                (List.mem_append.mpr (Or.inr (ih (some p.dropLast) q c hmem' hpass)))
            · rw [scanLoop_cons_blocked lister rest hp hc (Bool.not_eq_true _ ▸ hgd)]
              exact List.mem_append.mpr (Or.inr (ih current q c hmem' hpass))
        · rw [scanLoop_cons_skip r root lister rest current (Bool.not_eq_true _ ▸ hp)]
          exact ih current q c hmem' hpass

/-- Modelled from the spec: the program's source contains no ignore-rule
handling at all, so the spec's exclusion test (`isExcluded`: a glob-style
ignore pattern, as loaded from `<base-dir>/.gitignore`, matched against a
path, fail-open on a malformed rule) is reconstructed here from the spec's
words only, in order to state what the code does with ignore-matched
paths. -/
def ignoreRuleExcludes (rule : String) (p : List String) : Bool :=
  match Pattern.new rule with
  | Except.ok pattern =>
      match p.getLast? with
      | some n => pattern.matches n
      | none => false
  | Except.error _ => false

/-- Root with a `.gitignore` excluding `*.log`, a log file and a source
file, mirroring the spec's Scenario E. -/
def cexTreeIgnore : List FSTree :=
  [FSTree.file ".gitignore" (some "*.log"),
   FSTree.file "x.log" (some "LOG"),
   FSTree.file "y.rs" (some "RS")]

/-- C4 counterexample: `x.log` is matched by the active ignore rule
`*.log` from the root's `.gitignore` (Scenario E of the spec), the filter
`*` compiles and matches every name, and yet the scan emits a file event
for `x.log`: the program never consults any ignore rule. -/
theorem C4_counterexample_ignored_file_still_scanned :
    ignoreRuleExcludes "*.log" ["x.log"] = true ∧
    Pattern.new "*" = Except.ok ⟨[Token.anySequence]⟩ ∧
    ScanEvent.fileEvent ["x.log"] "LOG" ∈
      scan true cexTreeIgnore (some ⟨[Token.anySequence]⟩) (fun _ => none) := by
  refine ⟨?_, ?_, ?_⟩
  · simp [ignoreRuleExcludes, Pattern.new, patNewLoop, List.get, Pattern.matches,
      Pattern.matchesWith, MatchOptions.default, matchesFrom, starLoop, charsEq,
      isSeparator, isAsciiChar]
  · simp [Pattern.new, patNewLoop, List.get]
  · refine scanLoop_complete true cexTreeIgnore (some ⟨[Token.anySequence]⟩)
      (fun _ => none) _ none ["x.log"] "LOG" (by decide) ?_
    simp [should_process_file, fileNameOf, Pattern.matches, Pattern.matchesWith,
      MatchOptions.default, matchesFrom, starLoop, charsEq, isSeparator]

/-- C4 amended: the program loads and consults no ignore rules at all:
`should_process_file` sees only the filter pattern, so every readable
walked file passing the filter produces its file event even when an ignore
rule in the spec's sense — including one sitting in the scanned tree's own
`.gitignore` — matches its path. -/
theorem C4_amended_ignore_rules_not_consulted (r : Bool) (cs : List FSTree)
    (pat : Option Pattern) (lister : List String → Option String)
    (q : List String) (c : String) (rule : String)
    (_hrule : ignoreRuleExcludes rule q = true)
    (hmem : (q, EntryKind.file (some c)) ∈ walkForest (if r then none else some 1) 1 [] cs)
    (hpass : should_process_file q pat = true) :
    ScanEvent.fileEvent q c ∈ scan r cs pat lister :=
  scanLoop_complete r cs pat lister _ none q c hmem hpass

theorem C4_amended_ignore_rules_not_consulted_witness :
    ScanEvent.fileEvent ["x.log"] "LOG" ∈ scan true cexTreeIgnore none (fun _ => none) :=
  C4_amended_ignore_rules_not_consulted true cexTreeIgnore none (fun _ => none)
    ["x.log"] "LOG" "*.log"
    (by simp [ignoreRuleExcludes, Pattern.new, patNewLoop, List.get, Pattern.matches,
      Pattern.matchesWith, MatchOptions.default, matchesFrom, starLoop, charsEq,
      isSeparator, isAsciiChar])
    (by decide) (by rfl)

/-- C9 counterexample: the program's argument surface consists of the
recursive flag and the filter only; no assignment of arguments makes the
scan root anything other than the literal current directory, so no `-b`
or `--base-dir` flag exists. -/
theorem C9_counterexample_no_base_dir_flag :
    scanRoot (Args.mk true (some "*.rs")) = "." ∧ ¬ ∃ a : Args, scanRoot a ≠ "." :=
  ⟨rfl, fun ⟨_, h⟩ => h rfl⟩

/-- C9 amended: the root directory is not configurable: `Args` carries
exactly the recursive flag and the optional filter, and the walker root is
the current directory `.` for every argument assignment. -/
theorem C9_amended_root_always_current_dir :
    (∀ a : Args, scanRoot a = ".") ∧
    (∀ a b : Args, a.recursive = b.recursive → a.filter = b.filter → a = b) :=
  ⟨fun _ => rfl, fun a b h1 h2 => by cases a; cases b; simp_all⟩

theorem C9_amended_root_always_current_dir_witness :
    scanRoot (Args.mk false none) = "." ∧ Args.mk true (some "g") = Args.mk true (some "g") :=
  ⟨C9_amended_root_always_current_dir.1 (Args.mk false none),
   C9_amended_root_always_current_dir.2 (Args.mk true (some "g")) (Args.mk true (some "g"))
     rfl rfl⟩
